import Mathlib

/-!
Verification of base: allocation context tracking and Linux file utilities.

A shallow embedding of

* `trace_event/memory_profiler_allocation_context.h`
  (`AllocationStack`, `AllocationContextTracker::capture_enabled`), and
* `file_util_linux.cc` (`CopyFile`, `EvictFileFromSystemCache`),

followed by the properties established about them.
-/

namespace base.trace_event

/-! ## AllocationStack -/

/-- Source: `using StackFrame = const char*;` a frame is the pointer value supplied by the
call site; only its identity is used. -/
abbrev StackFrame := Nat

/-- Source: `class AllocationStack`: the single member `std::vector<StackFrame> stack_`.
The vector is a list whose LAST element is `stack_.back()`. -/
structure AllocationStack where
  stack_ : List StackFrame
deriving DecidableEq, Repr

namespace AllocationStack

/-- Source: `AllocationStack()`: the vector starts empty. -/
def empty : AllocationStack := ⟨[]⟩

/-- Source: `stack_.size()`. -/
def size (s : AllocationStack) : Nat := s.stack_.length

/-- The bound in `DCHECK_LT(stack_.size(), 128u)`. -/
def kMaxHeight : Nat := 128

/-- Modelled from the spec: `DCHECK_LT(a, b)` comes from `base/logging.h`, which is not
among the sources.  In a debug build (`dcheck_is_on`) it is a fatal assertion that
`a < b`; in a release build it is compiled out.  The value is `true` when execution
continues past the check. -/
def DCHECK_LT (dcheck_is_on : Bool) (a b : Nat) : Bool :=
  !dcheck_is_on || decide (a < b)

/-- Source: `AllocationStack::push`.

```
DCHECK_LT(stack_.size(), 128u);
stack_.push_back(frame);
```

A failed assertion ends the process, rendered as `none`. -/
def push (dcheck_is_on : Bool) (s : AllocationStack) (frame : StackFrame) :
    Option AllocationStack :=
  if DCHECK_LT dcheck_is_on s.stack_.length kMaxHeight then some ⟨s.stack_ ++ [frame]⟩
  else none

/-- Source: `AllocationStack::pop`.

```
if (!stack_.empty())
  stack_.pop_back();
```
-/
def pop (s : AllocationStack) : AllocationStack :=
  if !s.stack_.isEmpty then ⟨s.stack_.dropLast⟩ else s

/-- Source: `ConstIterator = std::vector<StackFrame>::const_reverse_iterator`.  A reverse
iterator wraps a forward iterator `base`; here `base` is its index into the vector
(`0` is `begin()`, `size()` is `end()`). -/
structure ConstIterator where
  base : Nat
deriving DecidableEq, Repr

/-- Source: `top() { return stack_.rbegin(); }`: the reverse iterator built from `end()`. -/
def top (s : AllocationStack) : ConstIterator := ⟨s.stack_.length⟩

/-- Source: `bottom() { return stack_.rend(); }`: the reverse iterator built from `begin()`. -/
def bottom (_s : AllocationStack) : ConstIterator := ⟨0⟩

/-- Source: `*it` for a reverse iterator: the element just before `base`.  Dereferencing
`rend()` or an iterator outside the vector has no defined value (`none`). -/
def deref (s : AllocationStack) (it : ConstIterator) : Option StackFrame :=
  match it.base with
  | 0 => none
  | b + 1 => s.stack_[b]?

/-- Source: `++it` for a reverse iterator: the wrapped forward iterator moves one step back. -/
def next (it : ConstIterator) : ConstIterator := ⟨it.base - 1⟩

/-- The client loop `for (it = from; it != s.bottom(); ++it) visit(it)`: the
iterators at which the loop body runs, in order.  Every `++it` lowers `base` by one,
so the loop is written by recursion on `base`; `iterate_unfold` below shows that it
satisfies the loop's own equation. -/
def iterateFrom (s : AllocationStack) : Nat → List ConstIterator
  | 0 => []
  | b + 1 => ⟨b + 1⟩ :: iterateFrom s b

/-- The traversal loop started at the iterator `it`. -/
def iterate (s : AllocationStack) (it : ConstIterator) : List ConstIterator :=
  iterateFrom s it.base

/-- One call made on a stack by the instrumentation. -/
inductive Op where
  | push (frame : StackFrame)
  | pop
deriving DecidableEq, Repr

/-- Perform one call; `none` when the call ended the process. -/
def step (dcheck_is_on : Bool) (s : AllocationStack) : Op → Option AllocationStack
  | .push frame => push dcheck_is_on s frame
  | .pop => some (pop s)

/-- Perform a sequence of calls, first to last. -/
def run (dcheck_is_on : Bool) : List Op → AllocationStack → Option AllocationStack
  | [], s => some s
  | op :: ops, s =>
    match step dcheck_is_on s op with
    | none => none
    | some s1 => run dcheck_is_on ops s1

/-- Number of `push` calls in a sequence. -/
def pushes : List Op → Nat
  | [] => 0
  | .push _ :: ops => pushes ops + 1
  | .pop :: ops => pushes ops

/-- Number of `pop` calls in a sequence. -/
def pops : List Op → Nat
  | [] => 0
  | .push _ :: ops => pops ops
  | .pop :: ops => pops ops + 1

/-- The running count of a call sequence started at `n`: plus one for a push, minus
one for a pop, the subtraction stopping at zero at every pop. -/
def depthFrom : Nat → List Op → Nat
  | n, [] => n
  | n, .push _ :: ops => depthFrom (n + 1) ops
  | n, .pop :: ops => depthFrom (n - 1) ops

/-- The running count started at zero. -/
def depth (ops : List Op) : Nat := depthFrom 0 ops

/-- No pop of the sequence is issued at running count zero: every prefix holds at
least as many pushes as pops. -/
def NoUnderflow (ops : List Op) : Prop :=
  ∀ k, k ≤ ops.length → pops (ops.take k) ≤ pushes (ops.take k)

instance (ops : List Op) : Decidable (NoUnderflow ops) :=
  inferInstanceAs (Decidable (∀ k, k ≤ ops.length → pops (ops.take k) ≤ pushes (ops.take k)))

/-- Every frame pushed by the sequence is popped by it, and none of its pops reaches
below its own pushes. -/
def Balanced (ops : List Op) : Prop :=
  pushes ops = pops ops ∧ NoUnderflow ops

instance (ops : List Op) : Decidable (Balanced ops) :=
  inferInstanceAs (Decidable (pushes ops = pops ops ∧ NoUnderflow ops))

/-- No prefix of the sequence has a running count above the assertion bound. -/
def WithinBound (ops : List Op) : Prop :=
  ∀ k, k ≤ ops.length → depth (ops.take k) ≤ kMaxHeight

instance (ops : List Op) : Decidable (WithinBound ops) :=
  inferInstanceAs (Decidable (∀ k, k ≤ ops.length → depth (ops.take k) ≤ kMaxHeight))

end AllocationStack

/-! ## AllocationContextTracker: the capture flag -/

/-- Source: `subtle::Atomic32`: a 32 bit signed integer; only comparisons with zero are made. -/
abbrev Atomic32 := Int

/-- An atomic load issued on `capture_enabled_`. -/
inductive Load where
  | NoBarrier_Load
  | Acquire_Load
deriving DecidableEq, Repr

namespace AllocationContextTracker

/-- Source: `AllocationContextTracker::capture_enabled`.

```
if (subtle::NoBarrier_Load(&capture_enabled_) == 0)
    return false;
return subtle::Acquire_Load(&capture_enabled_) != 0;
```

`relaxed` is the value the relaxed load observes and `acquire` the value an acquire
load observes.  The result is paired with the loads that were issued, in order. -/
def capture_enabled (relaxed acquire : Atomic32) : Bool × List Load :=
  if relaxed == 0 then (false, [Load.NoBarrier_Load])
  else (acquire != 0, [Load.NoBarrier_Load, Load.Acquire_Load])

/-- Modelled from the spec: the definition of the static member `capture_enabled_` is
in the implementation file, which is not among the sources.  The flag is off until
capturing is enabled, so it starts at zero. -/
def capture_enabled_init : Atomic32 := 0

/-- Modelled from the spec: `SetCaptureEnabled(enabled)` is declared in the header and
defined in the implementation file, which is not among the sources.  It "sets the
global flag" with a release store of `enabled`, so the flag becomes `1` for `true`
and `0` for `false`. -/
def SetCaptureEnabled (enabled : Bool) (_capture_enabled_ : Atomic32) : Atomic32 :=
  if enabled then 1 else 0

/-- A call of `capture_enabled()` on one thread with no concurrent store: both loads
read the current value of the flag. -/
def capture_enabled_single (capture_enabled_ : Atomic32) : Bool :=
  (capture_enabled capture_enabled_ capture_enabled_).1

end AllocationContextTracker

end base.trace_event

namespace file_util

/-! ## The operating system as seen by `file_util_linux.cc` -/

/-- A `char` of file data. -/
abbrev Byte := Nat

/-- One system call as it was issued, with the value the OS returned.  The path
arguments of `open` and `creat` play no part and are left out. -/
inductive Call where
  /-- The call `open(path, O_RDONLY)`. -/
  | open_ (ret : Int)
  /-- The call `creat(path, 0666)`. -/
  | creat (ret : Int)
  /-- The call `read(fd, buf, count)`; `data` is what the OS stored at `buf`. -/
  | read (fd : Int) (count : Nat) (ret : Int) (data : List Byte)
  /-- The call `write(fd, buf, count)`; `offered` is the `count` bytes at `buf`. -/
  | write (fd : Int) (offered : List Byte) (ret : Int)
  /-- The call `close(fd)`. -/
  | close (fd : Int) (ret : Int)
  /-- The call `fdatasync(fd)`. -/
  | fdatasync (fd : Int) (ret : Int)
  /-- The call `posix_fadvise(fd, 0, 0, POSIX_FADV_DONTNEED)`. -/
  | posix_fadvise (fd : Int) (ret : Int)
deriving DecidableEq, Repr

/-- The value a system call returned. -/
def Call.ret : Call → Int
  | .open_ r => r
  | .creat r => r
  | .read _ _ r _ => r
  | .write _ _ r => r
  | .close _ r => r
  | .fdatasync _ r => r
  | .posix_fadvise _ r => r

/-- The bytes one call added to the file behind descriptor `fd`: a `write` on `fd`
that returned `ret ≥ 0` accepted the first `ret` of the bytes offered. -/
def Call.accepted (fd : Int) : Call → List Byte
  | .write fd1 offered ret => if fd1 = fd then offered.take ret.toNat else []
  | _ => []

/-- The byte sequence written to descriptor `fd` by a sequence of calls. -/
def written_to (fd : Int) (calls : List Call) : List Byte :=
  (calls.map (Call.accepted fd)).flatten

/-- The descriptors open after one call: a successful `open` or `creat` adds the
descriptor it returned, `close` releases its descriptor (on Linux also when it
reports an error), the other calls change nothing. -/
def fds_step (fds : List Int) : Call → List Int
  | .open_ ret => if ret < 0 then fds else ret :: fds
  | .creat ret => if ret < 0 then fds else ret :: fds
  | .close fd _ => fds.erase fd
  | _ => fds

/-- The descriptors open after a sequence of calls, starting from `fds`. -/
def fds_after (fds : List Int) (calls : List Call) : List Int :=
  calls.foldl fds_step fds

/-- What the OS does at one `read`: it fails (the call returns `-1`) or it stores a
chunk of bytes at the start of the buffer and returns the chunk's length; the empty
chunk is end of file. -/
inductive ReadOutcome where
  | error
  | data (chunk : List Byte)
deriving DecidableEq, Repr

/-- Source: `const size_t kBufferSize = 32768;` -/
def kBufferSize : Nat := 32768

/-- The bytes the OS stores for a `read` of at most `count` bytes. -/
def ReadOutcome.stored (count : Nat) : ReadOutcome → List Byte
  | .error => []
  | .data chunk => chunk.take count

/-- The return value of a `read` of at most `count` bytes. -/
def ReadOutcome.ret (count : Nat) : ReadOutcome → Int
  | .error => -1
  | .data chunk => ((chunk.take count).length : Int)

/-- Source: `std::vector<char> buffer(kBufferSize)` as a map from index to byte. -/
abbrev Buffer := Nat → Byte

/-- The buffer after the OS stored `chunk` at its start. -/
def Buffer.store (buffer : Buffer) (chunk : List Byte) : Buffer :=
  fun i => (chunk[i]?).getD (buffer i)

/-- The `count` bytes at `&buffer[off]`. -/
def Buffer.slice (buffer : Buffer) (off count : Nat) : List Byte :=
  (List.range count).map (fun i => buffer (off + i))

/-- The results the OS gives to the calls of one `CopyFile`: the result of `open`, of
`creat`, of the successive `read` calls, of the successive `write` calls, of
`close(infile)` and of `close(outfile)`. -/
structure CopyFileOutcomes where
  open_ : Int
  creat : Int
  reads : List ReadOutcome
  writes : List Int
  close_infile : Int
  close_outfile : Int
deriving DecidableEq, Repr

/-- The inner loop of `CopyFile`.

```
do {
  ssize_t bytes_written_partial = write(outfile, &buffer[bytes_written_per_read],
                                        bytes_read - bytes_written_per_read);
  if (bytes_written_partial < 0) { result = false; break; }
  bytes_written_per_read += bytes_written_partial;
} while (bytes_written_per_read < bytes_read);
```

The first argument lists the results of the `write` calls still to come.  The value
is `result`, the results left over, and the calls issued; it is `none` when the loop
asks for more results than were listed. -/
def write_loop (outfile : Int) (buffer : Buffer) (bytes_read : Int) :
    List Int → Int → Option (Bool × List Int × List Call)
  | [], _ => none
  | bytes_written_partial :: writes, bytes_written_per_read =>
    let call := Call.write outfile
      (buffer.slice bytes_written_per_read.toNat (bytes_read - bytes_written_per_read).toNat)
      bytes_written_partial
    if bytes_written_partial < 0 then some (false, writes, [call])
    else
      let bytes_written_per_read := bytes_written_per_read + bytes_written_partial
      if bytes_written_per_read < bytes_read then
        match write_loop outfile buffer bytes_read writes bytes_written_per_read with
        | none => none
        | some (result, writes, calls) => some (result, writes, call :: calls)
      else some (true, writes, [call])

/-- The outer loop of `CopyFile`.

```
while (result) {
  ssize_t bytes_read = read(infile, &buffer[0], buffer.size());
  if (bytes_read < 0) { result = false; break; }
  if (bytes_read == 0) break;
  ... inner loop ...
}
```

The first argument lists the outcomes of the `read` calls still to come.  The value
is `result` and the calls issued; it is `none` when a loop asks for more outcomes
than were listed. -/
def read_loop (infile outfile : Int) :
    List ReadOutcome → Buffer → List Int → Option (Bool × List Call)
  | [], _, _ => none
  | outcome :: reads, buffer, writes =>
    let bytes_read := outcome.ret kBufferSize
    let buffer := buffer.store (outcome.stored kBufferSize)
    let call := Call.read infile kBufferSize bytes_read (outcome.stored kBufferSize)
    if bytes_read < 0 then some (false, [call])
    else if bytes_read == 0 then some (true, [call])
    else
      match write_loop outfile buffer bytes_read writes 0 with
      | none => none
      | some (false, _, calls) => some (false, call :: calls)
      | some (true, writes, calls) =>
        match read_loop infile outfile reads buffer writes with
        | none => none
        | some (result, calls1) => some (result, call :: (calls ++ calls1))

/-- Source: `file_util::CopyFile`: the value returned and the system calls issued, `none` when
the loops ask for more outcomes than `os` lists. -/
def CopyFile (os : CopyFileOutcomes) : Option (Bool × List Call) :=
  let infile := os.open_
  if infile < 0 then some (false, [Call.open_ infile])
  else
    let outfile := os.creat
    if outfile < 0 then
      some (false, [Call.open_ infile, Call.creat outfile, Call.close infile os.close_infile])
    else
      match read_loop infile outfile os.reads (fun _ => 0) os.writes with
      | none => none
      | some (result, calls) =>
        let result := if os.close_infile < 0 then false else result
        let result := if os.close_outfile < 0 then false else result
        some (result, [Call.open_ infile, Call.creat outfile] ++ calls ++
          [Call.close infile os.close_infile, Call.close outfile os.close_outfile])

/-- The chunks delivered by the successive `read` calls up to the first one that
returns `0` (or fails). -/
def chunks_until_eof : List ReadOutcome → List (List Byte)
  | [] => []
  | outcome :: reads =>
    if outcome.ret kBufferSize ≤ 0 then []
    else outcome.stored kBufferSize :: chunks_until_eof reads

/-- Whether a call is a `read`. -/
def Call.isRead : Call → Bool
  | .read _ _ _ _ => true
  | _ => false

/-- Whether a call is a `write`. -/
def Call.isWrite : Call → Bool
  | .write _ _ _ => true
  | _ => false

/-- The call `read(fd, &buffer[0], buffer.size())` as issued when the OS answers it
with `outcome`. -/
def ReadOutcome.call (fd : Int) (outcome : ReadOutcome) : Call :=
  Call.read fd kBufferSize (outcome.ret kBufferSize) (outcome.stored kBufferSize)

/-- The write results `block` carry a chunk of `n` bytes to its end: there is at least
one, none is negative, the bytes accepted before the last one stay below `n`, and
with the last one they reach `n`. -/
def CompletesChunk (n : Int) (block : List Int) : Prop :=
  block ≠ [] ∧ (∀ w ∈ block, 0 ≤ w) ∧ block.dropLast.sum < n ∧ n ≤ block.sum

instance (n : Int) (block : List Int) : Decidable (CompletesChunk n block) :=
  inferInstanceAs
    (Decidable (block ≠ [] ∧ (∀ w ∈ block, 0 ≤ w) ∧ block.dropLast.sum < n ∧ n ≤ block.sum))

/-- The part of the OS outcomes that one copy uses up, told from the outcome lists
alone: `Course reads writes usedR usedW` says that, of the outcomes `reads` and
`writes` the OS holds ready, a copy receives exactly the read outcomes `usedR` and
the write results `usedW`, in order.

* `stop`: a `read` that fails or reports end of file is the last call of the loops.
* `write_fails`: after a `read` that delivered a chunk, writes that accept fewer bytes
  than the chunk holds are followed by a failing `write`, the last call of the loops.
* `chunk`: after a `read` that delivered a chunk, a block of writes carries the chunk
  to its end, and the copy goes on with the outcomes that follow. -/
inductive Course : List ReadOutcome → List Int → List ReadOutcome → List Int → Prop
  | stop (o : ReadOutcome) (reads : List ReadOutcome) (writes : List Int) :
      o.ret kBufferSize ≤ 0 → Course (o :: reads) writes [o] []
  | write_fails (o : ReadOutcome) (reads : List ReadOutcome) (good : List Int) (neg : Int)
      (writes : List Int) :
      0 < o.ret kBufferSize → (∀ w ∈ good, 0 ≤ w) → good.sum < o.ret kBufferSize → neg < 0 →
      Course (o :: reads) (good ++ neg :: writes) [o] (good ++ [neg])
  | chunk (o : ReadOutcome) (reads : List ReadOutcome) (block writes : List Int)
      (usedR : List ReadOutcome) (usedW : List Int) :
      0 < o.ret kBufferSize → CompletesChunk (o.ret kBufferSize) block →
      Course reads writes usedR usedW →
      Course (o :: reads) (block ++ writes) (o :: usedR) (block ++ usedW)

/-- A call that is a `write` accepted no more bytes than it was offered. -/
def Call.within_offer : Call → Prop
  | .write _ offered ret => ret ≤ (offered.length : Int)
  | _ => True

instance (c : Call) : Decidable c.within_offer := by
  cases c <;> unfold Call.within_offer <;> infer_instance

/-- Every `write` among the calls accepted no more bytes than it was offered. -/
def WritesWithinOffer (calls : List Call) : Prop :=
  ∀ c ∈ calls, c.within_offer

instance (calls : List Call) : Decidable (WritesWithinOffer calls) :=
  inferInstanceAs (Decidable (∀ c ∈ calls, c.within_offer))

/-- The results the OS gives to the calls of one `EvictFileFromSystemCache`. -/
structure EvictOutcomes where
  open_ : Int
  fdatasync : Int
  posix_fadvise : Int
  close : Int
deriving DecidableEq, Repr

/-- Source: `file_util::EvictFileFromSystemCache`: the value returned and the system calls
issued.

```
int fd = open(path.value().c_str(), O_RDONLY);
if (fd < 0) return false;
if (fdatasync(fd) != 0) return false;
if (posix_fadvise(fd, 0, 0, POSIX_FADV_DONTNEED) != 0) return false;
close(fd);
return true;
```
-/
def EvictFileFromSystemCache (os : EvictOutcomes) : Bool × List Call :=
  let fd := os.open_
  if fd < 0 then (false, [Call.open_ fd])
  else if os.fdatasync != 0 then (false, [Call.open_ fd, Call.fdatasync fd os.fdatasync])
  else if os.posix_fadvise != 0 then
    (false, [Call.open_ fd, Call.fdatasync fd os.fdatasync,
      Call.posix_fadvise fd os.posix_fadvise])
  else
    (true, [Call.open_ fd, Call.fdatasync fd os.fdatasync,
      Call.posix_fadvise fd os.posix_fadvise, Call.close fd os.close])

end file_util

/-! ## Properties of AllocationStack -/

namespace base.trace_event.AllocationStack

theorem pushes_append (a b : List Op) : pushes (a ++ b) = pushes a + pushes b := by
  induction a with
  | nil => simp [pushes]
  | cons op a ih =>
    cases op with
    | push f => simp [pushes, ih]; omega
    | pop => simp [pushes, ih]

theorem pops_append (a b : List Op) : pops (a ++ b) = pops a + pops b := by
  induction a with
  | nil => simp [pops]
  | cons op a ih =>
    cases op with
    | push f => simp [pops, ih]
    | pop => simp [pops, ih]; omega

theorem size_pop (s : AllocationStack) : (pop s).size = s.size - 1 := by
  obtain ⟨l⟩ := s
  cases l with
  | nil => simp [pop, size]
  | cons x xs => simp [pop, size]

theorem pop_snoc (below : List StackFrame) (f : StackFrame) :
    pop ⟨below ++ [f]⟩ = ⟨below⟩ := by
  simp [pop]

theorem push_release (s : AllocationStack) (frame : StackFrame) :
    push false s frame = some ⟨s.stack_ ++ [frame]⟩ := by
  simp [push, DCHECK_LT]

theorem push_debug_lt (s : AllocationStack) (frame : StackFrame) (h : s.size < kMaxHeight) :
    push true s frame = some ⟨s.stack_ ++ [frame]⟩ := by
  unfold size at h
  simp [push, DCHECK_LT, h]

theorem push_debug_ge (s : AllocationStack) (frame : StackFrame) (h : kMaxHeight ≤ s.size) :
    push true s frame = none := by
  unfold size at h
  simp [push, DCHECK_LT]
  omega

theorem push_eq_some (b : Bool) (s s1 : AllocationStack) (frame : StackFrame)
    (h : push b s frame = some s1) : s1 = ⟨s.stack_ ++ [frame]⟩ := by
  unfold push at h
  split at h
  · exact (Option.some.inj h).symm
  · exact absurd h (by simp)

/-- The running count bounds the plain difference of pushes and pops from above. -/
theorem depthFrom_ge (ops : List Op) : ∀ n, n + pushes ops ≤ depthFrom n ops + pops ops := by
  induction ops with
  | nil => intro n; simp [pushes, pops, depthFrom]
  | cons op ops ih =>
    intro n
    cases op with
    | push f => have := ih (n + 1); simp only [pushes, pops, depthFrom]; omega
    | pop => have := ih (n - 1); simp only [pushes, pops, depthFrom]; omega

/-- When no pop is issued at running count zero the running count is the plain
difference. -/
theorem depthFrom_eq (ops : List Op) : ∀ n,
    (∀ k, k ≤ ops.length → pops (ops.take k) ≤ n + pushes (ops.take k)) →
    depthFrom n ops + pops ops = n + pushes ops := by
  induction ops with
  | nil => intro n _; simp [pushes, pops, depthFrom]
  | cons op ops ih =>
    intro n h
    cases op with
    | push f =>
      have h1 := ih (n + 1) (fun k hk => by
        have := h (k + 1) (by simp; omega)
        simp only [List.take_succ_cons, pushes, pops] at this
        omega)
      simp only [pushes, pops, depthFrom]; omega
    | pop =>
      have h0 := h 1 (by simp)
      simp only [List.take_succ_cons, List.take_zero, pushes, pops] at h0
      have h1 := ih (n - 1) (fun k hk => by
        have := h (k + 1) (by simp; omega)
        simp only [List.take_succ_cons, pushes, pops] at this
        omega)
      simp only [pushes, pops, depthFrom]; omega

/-- A sequence of calls returns, with the running count as size, in a release build
and, in a debug build, when the running count stays within the bound. -/
theorem run_size (b : Bool) (ops : List Op) : ∀ s : AllocationStack,
    (b = false ∨ ∀ k, k ≤ ops.length → depthFrom s.size (ops.take k) ≤ kMaxHeight) →
    ∃ s1, run b ops s = some s1 ∧ s1.size = depthFrom s.size ops := by
  induction ops with
  | nil => intro s _; exact ⟨s, rfl, rfl⟩
  | cons op ops ih =>
    intro s h
    cases op with
    | push f =>
      have hp : push b s f = some ⟨s.stack_ ++ [f]⟩ := by
        rcases h with h | h
        · subst h; exact push_release s f
        · cases b
          · exact push_release s f
          · have := h 1 (by simp)
            simp only [List.take_succ_cons, List.take_zero, depthFrom] at this
            exact push_debug_lt s f (by omega)
      have hsz : (AllocationStack.mk (s.stack_ ++ [f])).size = s.size + 1 := by simp [size]
      obtain ⟨s1, h1, h2⟩ := ih ⟨s.stack_ ++ [f]⟩ (by
        rcases h with h | h
        · exact Or.inl h
        · right
          intro k hk
          have := h (k + 1) (by simp; omega)
          simpa only [List.take_succ_cons, depthFrom, hsz] using this)
      refine ⟨s1, ?_, ?_⟩
      · simp only [run, step, hp]; exact h1
      · rw [h2, hsz]; rfl
    | pop =>
      obtain ⟨s1, h1, h2⟩ := ih (pop s) (by
        rcases h with h | h
        · exact Or.inl h
        · right
          intro k hk
          have := h (k + 1) (by simp; omega)
          simpa only [List.take_succ_cons, depthFrom, size_pop] using this)
      refine ⟨s1, ?_, ?_⟩
      · simp only [run, step]; exact h1
      · rw [h2, size_pop]; rfl

/-- In a debug build a returning sequence of calls keeps the size within the bound. -/
theorem run_debug_bound (ops : List Op) : ∀ s s1 : AllocationStack,
    s.size ≤ kMaxHeight → run true ops s = some s1 → s1.size ≤ kMaxHeight := by
  induction ops with
  | nil => intro s s1 hs h; simp only [run, Option.some.injEq] at h; subst h; exact hs
  | cons op ops ih =>
    intro s s1 hs h
    cases op with
    | push f =>
      by_cases hlt : s.size < kMaxHeight
      · simp only [run, step, push_debug_lt s f hlt] at h
        exact ih _ s1 (by simp [size] at hlt ⊢; omega) h
      · simp [run, step, push_debug_ge s f (by omega)] at h
    | pop =>
      simp only [run, step] at h
      exact ih _ s1 (by rw [size_pop]; omega) h

/-- Pushing the frames of a list one after the other appends them when the bound is
not passed. -/
theorem run_pushes (b : Bool) (frames : List StackFrame) : ∀ s : AllocationStack,
    s.size + frames.length ≤ kMaxHeight →
    run b (frames.map Op.push) s = some ⟨s.stack_ ++ frames⟩ := by
  induction frames with
  | nil => intro s _; simp [run]
  | cons f frames ih =>
    intro s h
    simp only [List.length_cons] at h
    have hp : push b s f = some ⟨s.stack_ ++ [f]⟩ := by
      cases b
      · exact push_release s f
      · exact push_debug_lt s f (by omega)
    simp only [List.map_cons, run, step, hp]
    rw [ih ⟨s.stack_ ++ [f]⟩ (by simp [size] at h ⊢; omega)]
    simp

/-- The traversal loop obeys the equation of `for (; it != bottom(); ++it)`. -/
theorem iterate_unfold (s : AllocationStack) (it : ConstIterator) :
    iterate s it = if it = bottom s then [] else it :: iterate s (next it) := by
  obtain ⟨b⟩ := it
  cases b with
  | zero => simp [iterate, iterateFrom, bottom]
  | succ n => simp [iterate, iterateFrom, bottom, next]

theorem iterateFrom_length (s : AllocationStack) (n : Nat) : (iterateFrom s n).length = n := by
  induction n with
  | zero => rfl
  | succ n ih => simp [iterateFrom, ih]

theorem iterateFrom_index (s : AllocationStack) (n : Nat) :
    (iterateFrom s n).map (fun it => it.base - 1) = (List.range n).reverse := by
  induction n with
  | zero => rfl
  | succ n ih => simp [iterateFrom, ih, List.range_succ]

theorem iterateFrom_deref (s : AllocationStack) (n : Nat) (h : n ≤ s.stack_.length) :
    (iterateFrom s n).map (deref s) = ((s.stack_.take n).reverse).map some := by
  induction n with
  | zero => simp [iterateFrom]
  | succ n ih =>
    have hlt : n < s.stack_.length := h
    simp only [iterateFrom, List.map_cons, ih (by omega), deref]
    rw [List.take_succ, List.getElem?_eq_getElem hlt]
    simp only [Option.toList, List.reverse_append, List.reverse_cons, List.reverse_nil,
      List.nil_append, List.singleton_append, List.map_cons]

theorem next_iter (k : Nat) : ∀ it : ConstIterator, (next^[k]) it = ⟨it.base - k⟩ := by
  induction k with
  | zero => intro it; rfl
  | succ k ih =>
    intro it
    rw [Function.iterate_succ_apply, ih]
    simp only [next, ConstIterator.mk.injEq]
    omega

theorem deref_top (s : AllocationStack) : deref s (top s) = s.stack_.getLast? := by
  obtain ⟨l⟩ := s
  cases h : l.length with
  | zero =>
    have : l = [] := List.length_eq_zero.mp h
    subst this
    rfl
  | succ n =>
    simp only [deref, top, h]
    rw [List.getLast?_eq_getElem?, h]
    rfl

/-- The shape of a run from any start: the frame on top was pushed by the sequence and
everything after that push is balanced, or the result is an initial part of the start
stack that the sequence never went below. -/
theorem run_top (b : Bool) (ops : List Op) : ∀ s0 s : AllocationStack,
    run b ops s0 = some s →
    (∃ f pre suf, s.stack_.getLast? = some f ∧ ops = pre ++ Op.push f :: suf ∧ Balanced suf) ∨
    (∃ j, j ≤ s0.size ∧ s.stack_ = s0.stack_.take j ∧
      s0.size + pushes ops = j + pops ops ∧
      ∀ k, k ≤ ops.length → j + pops (ops.take k) ≤ s0.size + pushes (ops.take k)) ∨
    s.stack_ = [] := by
  induction ops with
  | nil =>
    intro s0 s h
    simp only [run, Option.some.injEq] at h
    subst h
    right; left
    refine ⟨s0.size, le_refl _, by simp [size], by simp [pushes, pops], ?_⟩
    intro k _
    simp [pushes, pops]
  | cons op ops ih =>
    intro s0 s h
    cases op with
    | push f =>
      simp only [run, step] at h
      cases hp : push b s0 f with
      | none => simp [hp] at h
      | some s1 =>
        simp only [hp] at h
        have hs1 := push_eq_some b s0 s1 f hp
        subst hs1
        rcases ih _ s h with ⟨g, pre, suf, hg, hops, hbal⟩ | ⟨j, hj, hst, hcnt, hpre⟩ | hnil
        · left
          exact ⟨g, Op.push f :: pre, suf, hg, by simp [hops], hbal⟩
        rotate_left
        · exact Or.inr (Or.inr hnil)
        · simp only [size, List.length_append, List.length_singleton] at hj hcnt hpre
          by_cases hjeq : j = s0.stack_.length + 1
          · left
            refine ⟨f, [], ops, ?_, rfl, ?_, ?_⟩
            · rw [hst, hjeq, List.take_of_length_le (by simp)]
              simp
            · omega
            · intro k hk
              have := hpre k hk
              omega
          · right; left
            refine ⟨j, by simp only [size]; omega, ?_, ?_, ?_⟩
            · rw [hst, List.take_append_of_le_length (by omega)]
            · simp only [size, pushes, pops]; omega
            · intro k hk
              cases k with
              | zero => simp [pushes, pops, size]; omega
              | succ k =>
                have := hpre k (by simpa using hk)
                simp only [List.take_succ_cons, pushes, pops, size]
                omega
    | pop =>
      simp only [run, step] at h
      rcases ih _ s h with ⟨g, pre, suf, hg, hops, hbal⟩ | ⟨j, hj, hst, hcnt, hpre⟩ | hnil
      · left
        exact ⟨g, Op.pop :: pre, suf, hg, by simp [hops], hbal⟩
      rotate_left
      · exact Or.inr (Or.inr hnil)
      by_cases hemp : s0.size = 0
      · right; right
        have hsz := size_pop s0
        have hj0 : j = 0 := by omega
        rw [hst, hj0]
        rfl
      · right; left
        have hsz := size_pop s0
        have htk : (pop s0).stack_.take j = s0.stack_.take j := by
          obtain ⟨l⟩ := s0
          rcases List.eq_nil_or_concat l with hl | ⟨l1, x, hl⟩
          · subst hl; simp [pop]
          · subst hl
            simp only [size, List.length_append, List.length_singleton] at hsz hj
            simp only [List.concat_eq_append, pop_snoc]
            rw [hsz] at hj
            rw [List.take_append_of_le_length (by simpa using hj)]
        refine ⟨j, by omega, by rw [hst, htk], ?_, ?_⟩
        · simp only [pushes, pops]; omega
        · intro k hk
          cases k with
          | zero => simp [pushes, pops]; omega
          | succ k =>
            have := hpre k (by simpa using hk)
            simp only [List.take_succ_cons, pushes, pops]
            omega

/-- A balanced sequence does not hold a push followed by a balanced rest: that push
would stay unpopped. -/
theorem balanced_no_live_push (a suf : List Op) (f : StackFrame)
    (h : Balanced (a ++ Op.push f :: suf)) (hs : Balanced suf) : False := by
  obtain ⟨htot, hpre⟩ := h
  have h1 := hpre a.length (by simp)
  rw [List.take_left] at h1
  rw [pushes_append, pops_append] at htot
  simp only [pushes, pops] at htot
  have := hs.1
  omega

/-- Two splits of one sequence at a push followed by balanced calls are the same split. -/
theorem balanced_split_unique {pre pre1 suf suf1 : List Op} {f f1 : StackFrame}
    (h : pre1 ++ Op.push f1 :: suf1 = pre ++ Op.push f :: suf)
    (h1 : Balanced suf1) (h2 : Balanced suf) : pre1 = pre ∧ f1 = f ∧ suf1 = suf := by
  rcases List.append_eq_append_iff.mp h with ⟨a, ha, hb⟩ | ⟨c, hc, hd⟩
  · cases a with
    | nil =>
      simp only [List.nil_append, List.cons.injEq, Op.push.injEq] at hb
      exact ⟨by simpa using ha.symm, hb.1, hb.2⟩
    | cons x a =>
      simp only [List.cons_append, List.cons.injEq] at hb
      rw [hb.2] at h1
      exact (balanced_no_live_push a suf f h1 h2).elim
  · cases c with
    | nil =>
      simp only [List.nil_append, List.cons.injEq, Op.push.injEq] at hd
      exact ⟨by simpa using hc, hd.1.symm, hd.2.symm⟩
    | cons x c =>
      simp only [List.cons_append, List.cons.injEq] at hd
      rw [hd.2] at h2
      exact (balanced_no_live_push c suf1 f1 h2 h1).elim

/-- C1, as stated, fails: after `pop(); push(7)` on an empty stack, in either build,
the stack holds one frame, while one push and one pop give `max(0, 1 - 1) = 0`. -/
theorem size_not_clamped_difference :
    run false [Op.pop, Op.push 7] empty = some ⟨[7]⟩ ∧
    run true [Op.pop, Op.push 7] empty = some ⟨[7]⟩ ∧
    (AllocationStack.mk [7]).size = 1 ∧
    max 0 ((pushes [Op.pop, Op.push 7] : Int) - (pops [Op.pop, Op.push 7] : Int)) = 0 := by
  decide

/-- C1 (amended): a finite sequence of push and pop calls applied to an empty stack
returns (in a release build always, in a debug build when the running count stays
within 128) and leaves a stack whose size is the running count: plus one per push,
minus one per pop with the subtraction stopping at zero at each pop.  That size is at
least `max(0, P - Q)`, and it equals `P - Q` when no pop was issued on an empty
stack. -/
theorem size_is_running_count (dcheck_is_on : Bool) (ops : List Op)
    (h : dcheck_is_on = false ∨ WithinBound ops) :
    ∃ s, run dcheck_is_on ops empty = some s ∧ s.size = depth ops ∧
      max 0 ((pushes ops : Int) - (pops ops : Int)) ≤ (s.size : Int) ∧
      (NoUnderflow ops → (s.size : Int) = (pushes ops : Int) - (pops ops : Int)) := by
  obtain ⟨s, hrun, hsize⟩ := run_size dcheck_is_on ops empty h
  have hsize1 : s.size = depth ops := hsize
  refine ⟨s, hrun, hsize1, ?_, ?_⟩
  · have := depthFrom_ge ops 0
    rw [hsize1]
    unfold depth
    omega
  · intro hno
    have := depthFrom_eq ops 0 (fun k hk => by have := hno k hk; omega)
    rw [hsize1]
    unfold depth
    omega

/-- Witness for C1 (amended): a debug build run with a pop in the middle. -/
theorem size_is_running_count_witness :
    (true = false ∨ WithinBound [Op.push 1, Op.push 2, Op.pop, Op.push 3]) ∧
    ∃ s, run true [Op.push 1, Op.push 2, Op.pop, Op.push 3] empty = some s ∧
      s.size = depth [Op.push 1, Op.push 2, Op.pop, Op.push 3] ∧
      max 0 ((pushes [Op.push 1, Op.push 2, Op.pop, Op.push 3] : Int) -
        (pops [Op.push 1, Op.push 2, Op.pop, Op.push 3] : Int)) ≤ (s.size : Int) ∧
      (NoUnderflow [Op.push 1, Op.push 2, Op.pop, Op.push 3] → (s.size : Int) =
        (pushes [Op.push 1, Op.push 2, Op.pop, Op.push 3] : Int) -
        (pops [Op.push 1, Op.push 2, Op.pop, Op.push 3] : Int)) :=
  ⟨Or.inr (by decide),
    size_is_running_count true [Op.push 1, Op.push 2, Op.pop, Op.push 3] (Or.inr (by decide))⟩

/-- C3, as stated, fails: in a release build a push onto a stack that holds 128 frames
is not absorbed, the stack then holds 129 frames. -/
theorem push_past_bound_release :
    (push false ⟨List.replicate 128 0⟩ 1).map size = some 129 := by
  simp [push, DCHECK_LT, size]

/-- C3 (amended): in a debug build the size never exceeds 128, an invariant kept by
every returning push, by every pop and by every returning sequence of calls.  In
either build pushing 128 frames onto an empty stack succeeds.  A push onto a stack
that holds 128 frames triggers the assertion in a debug build; in a release build it
is carried out and the stack then holds 129 frames. -/
theorem size_bound_debug :
    (∀ (s s1 : AllocationStack) (f : StackFrame),
      s.size ≤ 128 → push true s f = some s1 → s1.size ≤ 128) ∧
    (∀ s : AllocationStack, s.size ≤ 128 → (pop s).size ≤ 128) ∧
    (∀ (ops : List Op) (s : AllocationStack), run true ops empty = some s → s.size ≤ 128) ∧
    (∀ (b : Bool) (frames : List StackFrame), frames.length = 128 →
      run b (frames.map Op.push) empty = some ⟨frames⟩) ∧
    (∀ (s : AllocationStack) (f : StackFrame), s.size = 128 → push true s f = none) ∧
    (∀ (s : AllocationStack) (f : StackFrame), s.size = 128 →
      ∃ s1, push false s f = some s1 ∧ s1.size = 129) := by
  refine ⟨?_, ?_, ?_, ?_, ?_, ?_⟩
  · intro s s1 f hs h
    exact run_debug_bound [Op.push f] s s1 hs (by simp [run, step, h])
  · intro s hs
    rw [size_pop]; omega
  · intro ops s h
    exact run_debug_bound ops empty s (by decide) h
  · intro b frames h
    have := run_pushes b frames empty (by simp [empty, size, kMaxHeight, h])
    simpa [empty] using this
  · intro s f h
    exact push_debug_ge s f (by simp [kMaxHeight, h])
  · intro s f h
    refine ⟨_, push_release s f, ?_⟩
    simp only [size] at h
    simp [size, h]

/-- Witness for C3 (amended): the assertion fires on a stack of 128 frames. -/
theorem size_bound_debug_witness :
    (AllocationStack.mk (List.replicate 128 0)).size = 128 ∧
    push true ⟨List.replicate 128 0⟩ 1 = none :=
  ⟨by simp [size], size_bound_debug.2.2.2.2.1 ⟨List.replicate 128 0⟩ 1 (by simp [size])⟩

/-- C4: `pop()` has no frame argument and acts on the top: on a non-empty stack it
removes the frame pushed last and leaves the frames below as they were, in order; on
an empty stack it leaves the stack empty; in both builds it returns without signalling
an error. -/
theorem pop_removes_top :
    (∀ (below : List StackFrame) (f : StackFrame), pop ⟨below ++ [f]⟩ = ⟨below⟩) ∧
    (∀ (b : Bool) (s : AllocationStack) (f : StackFrame),
      (push b s f).map pop = (push b s f).map (fun _ => s)) ∧
    pop empty = empty ∧
    (∀ (b : Bool) (s : AllocationStack), step b s Op.pop = some (pop s)) := by
  refine ⟨pop_snoc, ?_, by decide, fun _ _ => rfl⟩
  intro b s f
  cases h : push b s f with
  | none => rfl
  | some s1 =>
    have := push_eq_some b s s1 f h
    subst this
    simp [pop_snoc]

/-- C5: for every stack, the loop from `top()` until `bottom()` dereferences the
frames in the reverse of push order, visits the vector positions `size()-1, ..., 0`
each exactly once, takes exactly `size()` steps (after which, and not before, the
iterator equals `bottom()`), and reads the stack only. -/
theorem traversal_top_to_bottom (s : AllocationStack) :
    (iterate s (top s)).map (deref s) = s.stack_.reverse.map some ∧
    (iterate s (top s)).map (fun it => it.base - 1) = (List.range s.size).reverse ∧
    (iterate s (top s)).Nodup ∧
    (iterate s (top s)).length = s.size ∧
    (next^[s.size]) (top s) = bottom s ∧
    (∀ k, k < s.size → (next^[k]) (top s) ≠ bottom s) ∧
    (∀ it, iterate s it = if it = bottom s then [] else it :: iterate s (next it)) := by
  have hidx := iterateFrom_index s s.stack_.length
  refine ⟨?_, hidx, ?_, iterateFrom_length s _, ?_, ?_, iterate_unfold s⟩
  · have := iterateFrom_deref s s.stack_.length (le_refl _)
    simpa [iterate, top] using this
  · have hnd : ((List.range s.stack_.length).reverse).Nodup :=
      List.nodup_reverse.mpr (List.nodup_range _)
    rw [← hidx] at hnd
    exact List.Nodup.of_map _ hnd
  · rw [next_iter]; simp [top, bottom, size]
  · intro k hk
    rw [next_iter]
    simp only [top, bottom, size, ne_eq, ConstIterator.mk.injEq] at hk ⊢
    omega

/-- Witness for C5: after one step on a stack of three frames the loop has not reached
`bottom()`. -/
theorem traversal_top_to_bottom_witness :
    1 < (AllocationStack.mk [1, 2, 3]).size ∧
    (next^[1]) (top ⟨[1, 2, 3]⟩) ≠ bottom ⟨[1, 2, 3]⟩ :=
  ⟨by decide, (traversal_top_to_bottom ⟨[1, 2, 3]⟩).2.2.2.2.2.1 1 (by decide)⟩

end base.trace_event.AllocationStack

/-! ## Properties of the capture flag -/

namespace base.trace_event.AllocationContextTracker

/-- C6: on a single thread `capture_enabled()` returns `false` while no
`SetCaptureEnabled(true)` was called (the flag is `0` at the start and after any
number of `SetCaptureEnabled(false)` calls), and returns `true` right after
`SetCaptureEnabled(true)` (the flag is then not `0`), whatever the flag was before. -/
theorem capture_enabled_follows_flag :
    (∀ n : Nat, ((SetCaptureEnabled false)^[n]) capture_enabled_init = 0 ∧
      capture_enabled_single (((SetCaptureEnabled false)^[n]) capture_enabled_init) = false) ∧
    (∀ flag : Atomic32, SetCaptureEnabled true flag ≠ 0 ∧
      capture_enabled_single (SetCaptureEnabled true flag) = true) := by
  constructor
  · intro n
    have h0 : ((SetCaptureEnabled false)^[n]) capture_enabled_init = 0 := by
      cases n with
      | zero => rfl
      | succ n => rw [Function.iterate_succ_apply']; rfl
    rw [h0]
    exact ⟨rfl, by decide⟩
  · intro flag
    simp [SetCaptureEnabled, capture_enabled_single, capture_enabled]

/-- C8: `capture_enabled()` is a two-tier read.  When the relaxed load observes `0` it
returns `false` and issues the relaxed load only; otherwise it issues the relaxed
load and then the acquire load and returns whether the acquire load observed a
non-zero value.  So it returns `true` only if the acquire load observed a non-zero
flag, and when both loads observe the same value `v` it returns `v != 0`. -/
theorem capture_enabled_two_tier (r a : Atomic32) :
    (r = 0 → capture_enabled r a = (false, [Load.NoBarrier_Load])) ∧
    (r ≠ 0 → capture_enabled r a =
      (a != 0, [Load.NoBarrier_Load, Load.Acquire_Load])) ∧
    ((capture_enabled r a).1 = true → a ≠ 0) ∧
    (capture_enabled a a).1 = (a != 0) := by
  refine ⟨?_, ?_, ?_, ?_⟩
  · intro h; simp [capture_enabled, h]
  · intro h; simp [capture_enabled, h]
  · unfold capture_enabled
    split <;> simp
  · unfold capture_enabled
    split <;> simp_all

/-- Witness for C8: the relaxed load observes `1`, the acquire load observes `5`. -/
theorem capture_enabled_two_tier_witness :
    (1 : Atomic32) ≠ 0 ∧
    capture_enabled 1 5 = ((5 : Atomic32) != 0, [Load.NoBarrier_Load, Load.Acquire_Load]) :=
  ⟨by decide, (capture_enabled_two_tier 1 5).2.1 (by decide)⟩

end base.trace_event.AllocationContextTracker

/-! ## Properties of the file utilities -/

namespace file_util

theorem written_to_cons (fd : Int) (c : Call) (calls : List Call) :
    written_to fd (c :: calls) = c.accepted fd ++ written_to fd calls := by
  simp [written_to]

theorem written_to_append (fd : Int) (a b : List Call) :
    written_to fd (a ++ b) = written_to fd a ++ written_to fd b := by
  simp [written_to]

theorem WritesWithinOffer.tail {c : Call} {calls : List Call}
    (h : WritesWithinOffer (c :: calls)) : WritesWithinOffer calls :=
  fun c1 hm => h c1 (List.mem_cons_of_mem _ hm)

theorem WritesWithinOffer.left {a b : List Call}
    (h : WritesWithinOffer (a ++ b)) : WritesWithinOffer a :=
  fun c hm => h c (List.mem_append_left _ hm)

theorem WritesWithinOffer.right {a b : List Call}
    (h : WritesWithinOffer (a ++ b)) : WritesWithinOffer b :=
  fun c hm => h c (List.mem_append_right _ hm)

/-- The bytes at `&buffer[off]` up to the end of the chunk just stored. -/
theorem slice_store (buffer : Buffer) (chunk : List Byte) (off : Nat) :
    (buffer.store chunk).slice off (chunk.length - off) = chunk.drop off := by
  apply List.ext_getElem
  · simp [Buffer.slice]
  · intro i h1 h2
    simp only [Buffer.slice, List.length_map, List.length_range, List.length_drop] at h1 h2
    simp only [Buffer.slice, Buffer.store, List.getElem_map, List.getElem_range,
      List.getElem_drop]
    rw [List.getElem?_eq_getElem (by omega)]
    rfl

/-- The inner loop reports success exactly when every `write` it issued succeeded. -/
theorem write_loop_result (outfile : Int) (buffer : Buffer) (bytes_read : Int)
    (writes : List Int) : ∀ (off : Int) (result : Bool) (rest : List Int) (calls : List Call),
    write_loop outfile buffer bytes_read writes off = some (result, rest, calls) →
    (result = true ↔ ∀ c ∈ calls, 0 ≤ c.ret) := by
  induction writes with
  | nil => intro off result rest calls h; simp [write_loop] at h
  | cons w writes ih =>
    intro off result rest calls h
    simp only [write_loop] at h
    split at h
    · rename_i hneg
      simp only [Option.some.injEq, Prod.mk.injEq] at h
      obtain ⟨h1, _, h3⟩ := h
      subst h1 h3
      simp [Call.ret, hneg]
    · rename_i hpos
      split at h
      · cases hrec : write_loop outfile buffer bytes_read writes (off + w) with
        | none => simp [hrec] at h
        | some r =>
          obtain ⟨result1, rest1, calls1⟩ := r
          simp only [hrec, Option.some.injEq, Prod.mk.injEq] at h
          obtain ⟨h1, _, h3⟩ := h
          subst h1 h3
          rw [ih _ _ _ _ hrec]
          simp only [List.mem_cons, forall_eq_or_imp, Call.ret]
          constructor
          · intro hc; exact ⟨by omega, hc⟩
          · intro hc; exact hc.2
      · simp only [Option.some.injEq, Prod.mk.injEq] at h
        obtain ⟨h1, _, h3⟩ := h
        subst h1 h3
        simp only [List.mem_singleton, forall_eq, Call.ret, true_iff]
        omega

/-- The outer loop reports success exactly when every call it issued succeeded. -/
theorem read_loop_result (infile outfile : Int) (reads : List ReadOutcome) :
    ∀ (buffer : Buffer) (writes : List Int) (result : Bool) (calls : List Call),
    read_loop infile outfile reads buffer writes = some (result, calls) →
    (result = true ↔ ∀ c ∈ calls, 0 ≤ c.ret) := by
  induction reads with
  | nil => intro buffer writes result calls h; simp [read_loop] at h
  | cons outcome reads ih =>
    intro buffer writes result calls h
    simp only [read_loop] at h
    split at h
    · rename_i hneg
      simp only [Option.some.injEq, Prod.mk.injEq] at h
      obtain ⟨h1, h2⟩ := h
      subst h1 h2
      simp [Call.ret, hneg]
    · rename_i hnn
      split at h
      · rename_i hz
        simp only [Option.some.injEq, Prod.mk.injEq] at h
        obtain ⟨h1, h2⟩ := h
        subst h1 h2
        simp only [List.mem_singleton, forall_eq, Call.ret, true_iff]
        omega
      · cases hw : write_loop outfile (buffer.store (outcome.stored kBufferSize))
            (outcome.ret kBufferSize) writes 0 with
        | none => simp [hw] at h
        | some r =>
          obtain ⟨wres, rest, wcalls⟩ := r
          have hwr := write_loop_result _ _ _ _ _ _ _ _ hw
          cases wres with
          | false =>
            simp only [hw, Option.some.injEq, Prod.mk.injEq] at h
            obtain ⟨h1, h2⟩ := h
            subst h1 h2
            have : ¬ ∀ c ∈ wcalls, 0 ≤ c.ret := fun hc => by simpa using hwr.mpr hc
            simp only [List.mem_cons, forall_eq_or_imp, false_iff, Bool.false_eq_true]
            exact fun hc => this hc.2
          | true =>
            simp only [hw] at h
            cases hr : read_loop infile outfile reads
                (buffer.store (outcome.stored kBufferSize)) rest with
            | none => simp [hr] at h
            | some r1 =>
              obtain ⟨rres, rcalls⟩ := r1
              simp only [hr, Option.some.injEq, Prod.mk.injEq] at h
              obtain ⟨h1, h2⟩ := h
              subst h1 h2
              rw [ih _ _ _ _ hr]
              have hall := hwr.mp rfl
              simp only [List.mem_cons, List.mem_append, forall_eq_or_imp, Call.ret]
              constructor
              · intro hc
                exact ⟨by omega, fun c hm => hm.elim (hall c) (hc c)⟩
              · intro hc c hm
                exact hc.2 c (Or.inr hm)

/-- The inner loop, when it succeeds with writes that accept no more than offered,
writes the rest of the chunk from the current offset on. -/
theorem write_loop_written (outfile : Int) (buffer : Buffer) (chunk : List Byte)
    (writes : List Int) : ∀ (off : Int) (rest : List Int) (calls : List Call),
    0 ≤ off → off ≤ (chunk.length : Int) →
    write_loop outfile (buffer.store chunk) (chunk.length : Int) writes off
      = some (true, rest, calls) →
    WritesWithinOffer calls →
    written_to outfile calls = chunk.drop off.toNat := by
  induction writes with
  | nil => intro off rest calls _ _ h; simp [write_loop] at h
  | cons w writes ih =>
    intro off rest calls h0 hle h hw
    have hoffer : (buffer.store chunk).slice off.toNat ((chunk.length : Int) - off).toNat
        = chunk.drop off.toNat := by
      have : ((chunk.length : Int) - off).toNat = chunk.length - off.toNat := by omega
      rw [this, slice_store]
    simp only [write_loop, hoffer] at h
    split at h
    · simp at h
    · rename_i hpos
      split at h
      · rename_i hlt
        cases hrec : write_loop outfile (buffer.store chunk) (chunk.length : Int) writes
            (off + w) with
        | none => simp [hrec] at h
        | some r =>
          obtain ⟨result1, rest1, calls1⟩ := r
          simp only [hrec, Option.some.injEq, Prod.mk.injEq] at h
          obtain ⟨h1, _, h3⟩ := h
          subst h1 h3
          have ih1 := ih (off + w) rest1 calls1 (by omega) (by omega) hrec hw.tail
          rw [written_to_cons, ih1]
          simp only [Call.accepted, if_true]
          have : (off + w).toNat = off.toNat + w.toNat := by omega
          rw [this, ← List.drop_drop, List.take_append_drop]
      · rename_i hge
        simp only [Option.some.injEq, Prod.mk.injEq, true_and] at h
        obtain ⟨_, h3⟩ := h
        subst h3
        have hret := hw _ (List.mem_singleton.mpr rfl)
        simp only [Call.within_offer, List.length_drop] at hret
        have hnil : written_to outfile [] = [] := rfl
        rw [written_to_cons, hnil, List.append_nil]
        simp only [Call.accepted, if_true]
        apply List.take_of_length_le
        simp only [List.length_drop]
        omega

/-- The outer loop, when it succeeds with writes that accept no more than offered,
writes the chunks read up to end of file, in order. -/
theorem read_loop_written (infile outfile : Int) (reads : List ReadOutcome) :
    ∀ (buffer : Buffer) (writes : List Int) (calls : List Call),
    read_loop infile outfile reads buffer writes = some (true, calls) →
    WritesWithinOffer calls →
    written_to outfile calls = (chunks_until_eof reads).flatten := by
  induction reads with
  | nil => intro buffer writes calls h; simp [read_loop] at h
  | cons outcome reads ih =>
    intro buffer writes calls h hw
    simp only [read_loop] at h
    split at h
    · simp at h
    · rename_i hnn
      split at h
      · rename_i hz
        simp only [Option.some.injEq, Prod.mk.injEq, true_and] at h
        subst h
        have hz1 : outcome.ret kBufferSize = 0 := by simpa using hz
        simp [written_to, Call.accepted, chunks_until_eof, hz1]
      · rename_i hz
        have hz1 : outcome.ret kBufferSize ≠ 0 := by simpa using hz
        have hlen : outcome.ret kBufferSize = ((outcome.stored kBufferSize).length : Int) := by
          cases outcome with
          | error => simp [ReadOutcome.ret] at hnn
          | data chunk => rfl
        cases hwl : write_loop outfile (buffer.store (outcome.stored kBufferSize))
            (outcome.ret kBufferSize) writes 0 with
        | none => simp [hwl] at h
        | some r =>
          obtain ⟨wres, rest, wcalls⟩ := r
          cases wres with
          | false => simp [hwl] at h
          | true =>
            simp only [hwl] at h
            cases hr : read_loop infile outfile reads
                (buffer.store (outcome.stored kBufferSize)) rest with
            | none => simp [hr] at h
            | some r1 =>
              obtain ⟨rres, rcalls⟩ := r1
              simp only [hr, Option.some.injEq, Prod.mk.injEq] at h
              obtain ⟨h1, h2⟩ := h
              subst h1 h2
              have hw1 : WritesWithinOffer (wcalls ++ rcalls) := hw.tail
              rw [hlen] at hwl
              have e1 := write_loop_written outfile buffer _ writes 0 rest wcalls
                (le_refl _) (by omega) hwl hw1.left
              have e2 := ih _ _ _ hr hw1.right
              rw [written_to_cons, written_to_append, e1, e2]
              have hgt : ¬ outcome.ret kBufferSize ≤ 0 := by omega
              simp [Call.accepted, chunks_until_eof, hgt]

/-- When `CopyFile` returns, it returns `true` exactly when every system call in its
trace returned a non-negative value; the trace is `open` alone when `open` fails,
`open`, `creat`, `close` when `creat` fails, and otherwise ends with both `close`
calls. -/
theorem CopyFile_result_trace (os : CopyFileOutcomes) (result : Bool)
    (calls : List Call) (h : CopyFile os = some (result, calls)) :
    (result = true ↔ ∀ c ∈ calls, 0 ≤ c.ret) ∧
    (os.open_ < 0 → calls = [Call.open_ os.open_]) ∧
    (0 ≤ os.open_ → os.creat < 0 →
      calls = [Call.open_ os.open_, Call.creat os.creat,
        Call.close os.open_ os.close_infile]) ∧
    (0 ≤ os.open_ → 0 ≤ os.creat → ∃ mid,
      calls = [Call.open_ os.open_, Call.creat os.creat] ++ mid ++
        [Call.close os.open_ os.close_infile, Call.close os.creat os.close_outfile]) := by
  unfold CopyFile at h
  simp only at h
  split at h
  · rename_i ho
    simp only [Option.some.injEq, Prod.mk.injEq] at h
    obtain ⟨h1, h2⟩ := h
    subst h1 h2
    refine ⟨by simp [Call.ret, ho], fun _ => rfl, fun h0 => by omega, fun h0 => by omega⟩
  · rename_i ho
    split at h
    · rename_i hc
      simp only [Option.some.injEq, Prod.mk.injEq] at h
      obtain ⟨h1, h2⟩ := h
      subst h1 h2
      refine ⟨by simp [Call.ret, hc], fun h0 => by omega, fun _ _ => rfl, fun _ h0 => by omega⟩
    · rename_i hc
      cases hr : read_loop os.open_ os.creat os.reads (fun _ => 0) os.writes with
      | none => simp [hr] at h
      | some r =>
        obtain ⟨rres, rcalls⟩ := r
        simp only [hr, Option.some.injEq, Prod.mk.injEq] at h
        obtain ⟨h1, h2⟩ := h
        have hrl := read_loop_result _ _ _ _ _ _ _ hr
        refine ⟨?_, fun h0 => by omega, fun _ h0 => by omega, fun _ _ => ⟨rcalls, h2.symm⟩⟩
        subst h2
        simp only [List.mem_append, List.mem_cons, List.mem_singleton, List.not_mem_nil,
          or_false]
        constructor
        · intro hres
          subst hres
          have hco : ¬ os.close_outfile < 0 := by
            intro hlt; simp [hlt] at h1
          have hci : ¬ os.close_infile < 0 := by
            intro hlt; simp [hlt] at h1
          have hrr : rres = true := by simpa [hco, hci] using h1
          have hall := hrl.mp hrr
          rintro c (((rfl | rfl) | hm) | rfl | rfl)
          · simpa [Call.ret] using ho
          · simpa [Call.ret] using hc
          · exact hall c hm
          · simpa [Call.ret] using hci
          · simpa [Call.ret] using hco
        · intro hall
          have hci : ¬ os.close_infile < 0 := by
            have := hall (Call.close os.open_ os.close_infile) (Or.inr (Or.inl rfl))
            simp only [Call.ret] at this; omega
          have hco : ¬ os.close_outfile < 0 := by
            have := hall (Call.close os.creat os.close_outfile) (Or.inr (Or.inr rfl))
            simp only [Call.ret] at this; omega
          have hrr : rres = true := hrl.mpr (fun c hm => hall c (Or.inl (Or.inr hm)))
          rw [← h1]
          simp [hci, hco, hrr]

/-- A block of write results that carries the chunk to its end makes the inner loop
succeed, using up exactly the block. -/
theorem write_loop_completes (outfile : Int) (buffer : Buffer) (n : Int)
    (block rest : List Int) : ∀ off : Int,
    block ≠ [] → (∀ w ∈ block, 0 ≤ w) → off + block.dropLast.sum < n → n ≤ off + block.sum →
    ∃ calls, write_loop outfile buffer n (block ++ rest) off = some (true, rest, calls) ∧
      calls.map Call.ret = block ∧ ∀ c ∈ calls, c.isWrite = true := by
  induction block with
  | nil => intro off h; exact absurd rfl h
  | cons w block ih =>
    intro off _ hnn hlt hge
    have hw : ¬ w < 0 := by have := hnn w (List.mem_cons_self _ _); omega
    cases block with
    | nil =>
      simp only [List.dropLast_single, List.sum_nil, List.sum_cons, add_zero] at hlt hge
      have hge1 : ¬ off + w < n := by omega
      have hrun : write_loop outfile buffer n (w :: rest) off = some (true, rest,
          [Call.write outfile (buffer.slice off.toNat (n - off).toNat) w]) := by
        rw [write_loop]
        simp only [hw, hge1, if_false]
      exact ⟨_, hrun, by simp [Call.ret], by simp [Call.isWrite]⟩
    | cons w1 block1 =>
      simp only [List.dropLast_cons₂, List.sum_cons] at hlt hge
      have hdl : 0 ≤ (w1 :: block1).dropLast.sum :=
        List.sum_nonneg (fun x hx =>
          hnn x (List.mem_cons_of_mem _ (List.mem_of_mem_dropLast hx)))
      have hlt1 : off + w < n := by omega
      obtain ⟨calls, hrun, hret, hall⟩ := ih (off + w) (by simp)
        (fun x hx => hnn x (List.mem_cons_of_mem _ hx)) (by omega)
        (by simp only [List.sum_cons]; omega)
      have hrun1 : write_loop outfile buffer n (w :: (w1 :: block1 ++ rest)) off
          = some (true, rest,
            Call.write outfile (buffer.slice off.toNat (n - off).toNat) w :: calls) := by
        rw [write_loop]
        simp only [hw, hlt1, if_false, if_true, hrun]
      refine ⟨_, hrun1, ?_, ?_⟩
      · simp [Call.ret, hret]
      · intro c hc
        rcases List.mem_cons.mp hc with rfl | hc
        · rfl
        · exact hall c hc

/-- Writes that accept fewer bytes than the chunk holds, followed by a failing write,
make the inner loop fail, using up exactly these results. -/
theorem write_loop_fails (outfile : Int) (buffer : Buffer) (n : Int)
    (good : List Int) (neg : Int) (rest : List Int) : ∀ off : Int,
    (∀ w ∈ good, 0 ≤ w) → off + good.sum < n → neg < 0 →
    ∃ calls, write_loop outfile buffer n (good ++ neg :: rest) off = some (false, rest, calls) ∧
      calls.map Call.ret = good ++ [neg] ∧ ∀ c ∈ calls, c.isWrite = true := by
  induction good with
  | nil =>
    intro off _ _ hneg
    have hrun : write_loop outfile buffer n (neg :: rest) off = some (false, rest,
        [Call.write outfile (buffer.slice off.toNat (n - off).toNat) neg]) := by
      rw [write_loop]
      simp only [hneg, if_true]
    exact ⟨_, hrun, by simp [Call.ret], by simp [Call.isWrite]⟩
  | cons w good ih =>
    intro off hnn hlt hneg
    simp only [List.sum_cons] at hlt
    have hw : ¬ w < 0 := by have := hnn w (List.mem_cons_self _ _); omega
    have hs : 0 ≤ good.sum := List.sum_nonneg (fun x hx => hnn x (List.mem_cons_of_mem _ hx))
    have hlt1 : off + w < n := by omega
    obtain ⟨calls, hrun, hret, hall⟩ := ih (off + w)
      (fun x hx => hnn x (List.mem_cons_of_mem _ hx)) (by omega) hneg
    have hrun1 : write_loop outfile buffer n (w :: (good ++ neg :: rest)) off
        = some (false, rest,
          Call.write outfile (buffer.slice off.toNat (n - off).toNat) w :: calls) := by
      rw [write_loop]
      simp only [hw, hlt1, if_false, if_true, hrun]
    refine ⟨_, hrun1, ?_, ?_⟩
    · simp [Call.ret, hret]
    · intro c hc
      rcases List.mem_cons.mp hc with rfl | hc
      · rfl
      · exact hall c hc

/-- Whatever the inner loop returns, the write results it used up either carry the
chunk to its end (success) or are short writes followed by a failing one (failure). -/
theorem write_loop_used (outfile : Int) (buffer : Buffer) (n : Int) (writes : List Int) :
    ∀ (off : Int) (result : Bool) (rest : List Int) (calls : List Call),
    off < n → write_loop outfile buffer n writes off = some (result, rest, calls) →
    ∃ used, writes = used ++ rest ∧
      (result = true → used ≠ [] ∧ (∀ w ∈ used, 0 ≤ w) ∧ off + used.dropLast.sum < n ∧
        n ≤ off + used.sum) ∧
      (result = false → ∃ good neg, used = good ++ [neg] ∧ (∀ w ∈ good, 0 ≤ w) ∧
        off + good.sum < n ∧ neg < 0) := by
  induction writes with
  | nil => intro off result rest calls _ h; simp [write_loop] at h
  | cons w writes ih =>
    intro off result rest calls hoff h
    simp only [write_loop] at h
    split at h
    · rename_i hneg
      simp only [Option.some.injEq, Prod.mk.injEq] at h
      obtain ⟨h1, h2, _⟩ := h
      subst h1 h2
      refine ⟨[w], rfl, fun hc => by simp at hc, fun _ => ⟨[], w, rfl, by simp, by simpa, hneg⟩⟩
    · rename_i hpos
      split at h
      · rename_i hlt
        cases hrec : write_loop outfile buffer n writes (off + w) with
        | none => simp [hrec] at h
        | some r =>
          obtain ⟨result1, rest1, calls1⟩ := r
          simp only [hrec, Option.some.injEq, Prod.mk.injEq] at h
          obtain ⟨h1, h2, _⟩ := h
          subst h1 h2
          obtain ⟨used, hused, htrue, hfalse⟩ := ih (off + w) _ _ _ hlt hrec
          refine ⟨w :: used, by simp [hused], ?_, ?_⟩
          · intro hres
            obtain ⟨hne, hnn, hdl, hsum⟩ := htrue hres
            obtain ⟨u, us, rfl⟩ := List.exists_cons_of_ne_nil hne
            refine ⟨by simp, ?_, ?_, ?_⟩
            · intro x hx
              rcases List.mem_cons.mp hx with rfl | hx
              · omega
              · exact hnn x hx
            · simp only [List.dropLast_cons₂, List.sum_cons]; omega
            · simp only [List.sum_cons] at hsum ⊢; omega
          · intro hres
            obtain ⟨good, neg, hg, hnn, hs, hneg⟩ := hfalse hres
            refine ⟨w :: good, neg, by simp [hg], ?_, by simp only [List.sum_cons]; omega, hneg⟩
            intro x hx
            rcases List.mem_cons.mp hx with rfl | hx
            · omega
            · exact hnn x hx
      · rename_i hge
        simp only [Option.some.injEq, Prod.mk.injEq] at h
        obtain ⟨h1, h2, _⟩ := h
        subst h1 h2
        have hsum : n ≤ off + [w].sum := by
          simp only [List.sum_cons, List.sum_nil]
          omega
        have hnn : ∀ x ∈ [w], 0 ≤ x := by
          intro x hx
          rw [List.mem_singleton.mp hx]
          omega
        exact ⟨[w], rfl, fun _ => ⟨by simp, hnn, by simpa, hsum⟩, fun hc => by simp at hc⟩

theorem Call.isRead_of_isWrite {c : Call} (h : c.isWrite = true) : c.isRead = false := by
  cases c <;> simp_all [Call.isWrite, Call.isRead]

theorem filter_isRead_writes {calls : List Call} (h : ∀ c ∈ calls, c.isWrite = true) :
    calls.filter Call.isRead = [] :=
  List.filter_eq_nil_iff.mpr (fun c hc => by simp [Call.isRead_of_isWrite (h c hc)])

theorem filter_isWrite_writes {calls : List Call} (h : ∀ c ∈ calls, c.isWrite = true) :
    calls.filter Call.isWrite = calls :=
  List.filter_eq_self.mpr h

/-- The outer loop on outcomes with a course: it returns, it succeeds exactly when all
the outcomes used up are successes, its `read` calls are those of the read outcomes
used up and its `write` calls return the write results used up. -/
theorem read_loop_of_course (infile outfile : Int) {reads : List ReadOutcome}
    {writes : List Int} {usedR : List ReadOutcome} {usedW : List Int}
    (hc : Course reads writes usedR usedW) :
    ∀ buffer : Buffer, ∃ result mid,
      read_loop infile outfile reads buffer writes = some (result, mid) ∧
      (result = true ↔ (∀ o ∈ usedR, 0 ≤ o.ret kBufferSize) ∧ ∀ w ∈ usedW, 0 ≤ w) ∧
      mid.filter Call.isRead = usedR.map (ReadOutcome.call infile) ∧
      (mid.filter Call.isWrite).map Call.ret = usedW ∧
      ∀ c ∈ mid, c.isRead = true ∨ c.isWrite = true := by
  induction hc with
  | stop o reads writes hle =>
    intro buffer
    by_cases hneg : o.ret kBufferSize < 0
    · refine ⟨false, [o.call infile], ?_, ?_, ?_, ?_, ?_⟩
      · rw [read_loop]
        simp only [hneg, if_true]
        rfl
      · simp only [List.mem_singleton, forall_eq, Bool.false_eq_true, false_iff, not_and]
        intro h0
        omega
      · simp [ReadOutcome.call, Call.isRead]
      · simp [ReadOutcome.call, Call.isWrite]
      · simp [ReadOutcome.call, Call.isRead]
    · have hz : o.ret kBufferSize = 0 := by omega
      refine ⟨true, [o.call infile], ?_, ?_, ?_, ?_, ?_⟩
      · rw [read_loop]
        simp only [hz, lt_self_iff_false, if_false, beq_self_eq_true, if_true]
        simp only [ReadOutcome.call, hz]
      · simp only [List.mem_singleton, forall_eq, true_iff]
        exact ⟨by omega, by simp⟩
      · simp [ReadOutcome.call, Call.isRead]
      · simp [ReadOutcome.call, Call.isWrite]
      · simp [ReadOutcome.call, Call.isRead]
  | write_fails o reads good neg writes hpos hnn hsum hneg =>
    intro buffer
    obtain ⟨calls, hrun, hret, hall⟩ := write_loop_fails outfile
      (buffer.store (o.stored kBufferSize)) (o.ret kBufferSize) good neg writes 0 hnn
      (by omega) hneg
    have h1 : ¬ o.ret kBufferSize < 0 := by omega
    have h2 : (o.ret kBufferSize == 0) = false := by
      simp only [beq_eq_false_iff_ne, ne_eq]; omega
    refine ⟨false, o.call infile :: calls, ?_, ?_, ?_, ?_, ?_⟩
    · rw [read_loop]
      simp only [h1, h2, if_false, hrun, Bool.false_eq_true]
      rfl
    · simp only [Bool.false_eq_true, false_iff, not_and, not_forall]
      intro _
      exact ⟨neg, by simp, by omega⟩
    · simp [List.filter_cons, ReadOutcome.call, Call.isRead, filter_isRead_writes hall]
    · simp [List.filter_cons, ReadOutcome.call, Call.isWrite, filter_isWrite_writes hall, hret]
    · intro c hc
      rcases List.mem_cons.mp hc with rfl | hc
      · left; rfl
      · right; exact hall c hc
  | chunk o reads block writes usedR usedW hpos hblock _ ih =>
    intro buffer
    obtain ⟨hne, hnn, hdl, hsum⟩ := hblock
    obtain ⟨calls, hrun, hret, hall⟩ := write_loop_completes outfile
      (buffer.store (o.stored kBufferSize)) (o.ret kBufferSize) block writes 0 hne hnn
      (by omega) (by omega)
    obtain ⟨result, mid, hrl, hiff, hreads, hwrites, hkinds⟩ :=
      ih (buffer.store (o.stored kBufferSize))
    have h1 : ¬ o.ret kBufferSize < 0 := by omega
    have h2 : (o.ret kBufferSize == 0) = false := by
      simp only [beq_eq_false_iff_ne, ne_eq]; omega
    refine ⟨result, o.call infile :: (calls ++ mid), ?_, ?_, ?_, ?_, ?_⟩
    · rw [read_loop]
      simp only [h1, h2, if_false, hrun, hrl, Bool.false_eq_true]
      rfl
    · rw [hiff]
      simp only [List.mem_cons, List.mem_append, forall_eq_or_imp]
      constructor
      · rintro ⟨ha, hb⟩
        exact ⟨⟨by omega, ha⟩, fun w hw => hw.elim (hnn w) (hb w)⟩
      · rintro ⟨⟨_, ha⟩, hb⟩
        exact ⟨ha, fun w hw => hb w (Or.inr hw)⟩
    · simp [List.filter_cons, ReadOutcome.call, Call.isRead, filter_isRead_writes hall,
        hreads]
    · simp [List.filter_cons, ReadOutcome.call, Call.isWrite, filter_isWrite_writes hall,
        hret, hwrites]
    · intro c hc
      rcases List.mem_cons.mp hc with rfl | hc
      · left; rfl
      · rcases List.mem_append.mp hc with hc | hc
        · right; exact hall c hc
        · exact hkinds c hc

/-- Whenever the outer loop returns, the outcomes it was given have a course. -/
theorem course_of_read_loop (infile outfile : Int) (reads : List ReadOutcome) :
    ∀ (buffer : Buffer) (writes : List Int) (result : Bool) (mid : List Call),
    read_loop infile outfile reads buffer writes = some (result, mid) →
    ∃ usedR usedW, Course reads writes usedR usedW := by
  induction reads with
  | nil => intro buffer writes result mid h; simp [read_loop] at h
  | cons o reads ih =>
    intro buffer writes result mid h
    rw [read_loop] at h
    split at h
    · rename_i hneg
      exact ⟨[o], [], Course.stop o reads writes (by omega)⟩
    · rename_i hnn
      split at h
      · rename_i hz
        have hz1 : o.ret kBufferSize = 0 := by simpa using hz
        exact ⟨[o], [], Course.stop o reads writes (by omega)⟩
      · rename_i hz
        have hz1 : o.ret kBufferSize ≠ 0 := by simpa using hz
        have hpos : 0 < o.ret kBufferSize := by omega
        cases hwl : write_loop outfile (buffer.store (o.stored kBufferSize))
            (o.ret kBufferSize) writes 0 with
        | none => simp [hwl] at h
        | some r =>
          obtain ⟨wres, rest, wcalls⟩ := r
          obtain ⟨used, hused, htrue, hfalse⟩ := write_loop_used _ _ _ _ _ _ _ _ hpos hwl
          cases wres with
          | false =>
            obtain ⟨good, neg, hg, hgn, hgs, hneg⟩ := hfalse rfl
            refine ⟨[o], good ++ [neg], ?_⟩
            have hw : writes = good ++ neg :: rest := by rw [hused, hg]; simp
            rw [hw]
            exact Course.write_fails o reads good neg rest hpos hgn (by omega) hneg
          | true =>
            obtain ⟨hne, hun, hdl, hsum⟩ := htrue rfl
            simp only [hwl] at h
            cases hr : read_loop infile outfile reads
                (buffer.store (o.stored kBufferSize)) rest with
            | none => simp [hr] at h
            | some r1 =>
              obtain ⟨rres, rcalls⟩ := r1
              obtain ⟨usedR, usedW, hcourse⟩ := ih _ _ _ _ hr
              refine ⟨o :: usedR, used ++ usedW, ?_⟩
              rw [hused]
              exact Course.chunk o reads used rest usedR usedW hpos
                ⟨hne, hun, by omega, by omega⟩ hcourse

/-- `CopyFile` on outcomes with a course, after a successful `open` and `creat`. -/
theorem CopyFile_of_course (os : CopyFileOutcomes) (ho : 0 ≤ os.open_) (hcr : 0 ≤ os.creat)
    (usedR : List ReadOutcome) (usedW : List Int)
    (hc : Course os.reads os.writes usedR usedW) :
    ∃ result mid,
      CopyFile os = some (result, [Call.open_ os.open_, Call.creat os.creat] ++ mid ++
        [Call.close os.open_ os.close_infile, Call.close os.creat os.close_outfile]) ∧
      (result = true ↔ (∀ o ∈ usedR, 0 ≤ o.ret kBufferSize) ∧ (∀ w ∈ usedW, 0 ≤ w) ∧
        0 ≤ os.close_infile ∧ 0 ≤ os.close_outfile) ∧
      mid.filter Call.isRead = usedR.map (ReadOutcome.call os.open_) ∧
      (mid.filter Call.isWrite).map Call.ret = usedW ∧
      ∀ c ∈ mid, c.isRead = true ∨ c.isWrite = true := by
  obtain ⟨rres, mid, hrl, hiff, hreads, hwrites, hkinds⟩ :=
    read_loop_of_course os.open_ os.creat hc (fun _ => 0)
  have h1 : ¬ os.open_ < 0 := by omega
  have h2 : ¬ os.creat < 0 := by omega
  refine ⟨if os.close_outfile < 0 then false else if os.close_infile < 0 then false else rres,
    mid, ?_, ?_, hreads, hwrites, hkinds⟩
  · unfold CopyFile
    simp only [h1, h2, if_false, hrl]
  · by_cases hco : os.close_outfile < 0
    · simp only [hco, if_true, Bool.false_eq_true, false_iff, not_and]
      intro _ _ _
      omega
    · by_cases hci : os.close_infile < 0
      · simp only [hco, hci, if_true, if_false, Bool.false_eq_true, false_iff, not_and]
        intro _ _
        omega
      · simp only [hco, hci, if_false, hiff]
        constructor
        · rintro ⟨ha, hb⟩
          exact ⟨ha, hb, by omega, by omega⟩
        · rintro ⟨ha, hb, _, _⟩
          exact ⟨ha, hb⟩

/-- C7: for every outcome of the OS calls, told from the outcomes alone.

* When `open` fails, `CopyFile` returns `false` and `open` is its only call: `creat`
  is not called.
* When `open` succeeds and `creat` fails, it returns `false` after the calls `open`,
  `creat` and `close` of the source descriptor.
* When both succeed and the outcomes have a course, in which the copy receives the
  read outcomes `usedR` and the write results `usedW`, it returns after the calls
  `open`, `creat`, the reads and writes, `close` of the source and `close` of the
  destination; its reads are those that received `usedR` and its writes returned
  `usedW`; and it returns `true` exactly when every read outcome in `usedR`, every
  write result in `usedW` and both `close` results are non-negative.
* Whenever it returns at all, the value is `true` exactly when every call of its
  trace returned a non-negative value, and, after a successful `open` and `creat`,
  the outcomes have a course and the value is `true` exactly when every read, every
  write and both `close` calls on that course succeeded. -/
theorem CopyFile_true_iff_calls_succeed (os : CopyFileOutcomes) :
    (os.open_ < 0 → CopyFile os = some (false, [Call.open_ os.open_])) ∧
    (0 ≤ os.open_ → os.creat < 0 →
      CopyFile os = some (false, [Call.open_ os.open_, Call.creat os.creat,
        Call.close os.open_ os.close_infile])) ∧
    (0 ≤ os.open_ → 0 ≤ os.creat → ∀ usedR usedW, Course os.reads os.writes usedR usedW →
      ∃ result mid,
        CopyFile os = some (result, [Call.open_ os.open_, Call.creat os.creat] ++ mid ++
          [Call.close os.open_ os.close_infile, Call.close os.creat os.close_outfile]) ∧
        (result = true ↔ (∀ o ∈ usedR, 0 ≤ o.ret kBufferSize) ∧ (∀ w ∈ usedW, 0 ≤ w) ∧
          0 ≤ os.close_infile ∧ 0 ≤ os.close_outfile) ∧
        mid.filter Call.isRead = usedR.map (ReadOutcome.call os.open_) ∧
        (mid.filter Call.isWrite).map Call.ret = usedW ∧
        ∀ c ∈ mid, c.isRead = true ∨ c.isWrite = true) ∧
    (∀ result calls, CopyFile os = some (result, calls) →
      (result = true ↔ ∀ c ∈ calls, 0 ≤ c.ret) ∧
      (0 ≤ os.open_ → 0 ≤ os.creat → ∃ usedR usedW, Course os.reads os.writes usedR usedW ∧
        (result = true ↔ (∀ o ∈ usedR, 0 ≤ o.ret kBufferSize) ∧ (∀ w ∈ usedW, 0 ≤ w) ∧
          0 ≤ os.close_infile ∧ 0 ≤ os.close_outfile))) := by
  refine ⟨?_, ?_, CopyFile_of_course os, ?_⟩
  · intro ho
    unfold CopyFile
    simp only [ho, if_true]
  · intro ho hcr
    have h1 : ¬ os.open_ < 0 := by omega
    unfold CopyFile
    simp only [h1, hcr, if_true, if_false]
  · intro result calls h
    refine ⟨(CopyFile_result_trace os result calls h).1, ?_⟩
    intro ho hcr
    have h1 : ¬ os.open_ < 0 := by omega
    have h2 : ¬ os.creat < 0 := by omega
    have hrl : ∃ rres mid, read_loop os.open_ os.creat os.reads (fun _ => 0) os.writes
        = some (rres, mid) := by
      cases hr : read_loop os.open_ os.creat os.reads (fun _ => 0) os.writes with
      | none =>
        unfold CopyFile at h
        simp [h1, h2, hr] at h
      | some r => exact ⟨r.1, r.2, rfl⟩
    obtain ⟨rres, mid, hr⟩ := hrl
    obtain ⟨usedR, usedW, hcourse⟩ := course_of_read_loop _ _ _ _ _ _ _ hr
    obtain ⟨result1, mid1, hrun, hiff, _⟩ := CopyFile_of_course os ho hcr usedR usedW hcourse
    have hres : result = result1 := by
      rw [hrun] at h
      simp only [Option.some.injEq, Prod.mk.injEq] at h
      exact h.1.symm
    exact ⟨usedR, usedW, hcourse, by rw [hres]; exact hiff⟩

/-- Witness for C7: a copy whose second chunk meets a failing `write` (the course uses
two reads and four writes and the copy returns `false`), and a copy whose second
`read` fails. -/
theorem CopyFile_true_iff_calls_succeed_witness :
    Course [.data [1, 2, 3], .data [4, 5], .data []] [2, 1, 1, -1, 9]
      [.data [1, 2, 3], .data [4, 5]] [2, 1, 1, -1] ∧
    CopyFile ⟨3, 4, [.data [1, 2, 3], .data [4, 5], .data []], [2, 1, 1, -1, 9], 0, 0⟩
      = some (false, [.open_ 3, .creat 4, .read 3 32768 3 [1, 2, 3], .write 4 [1, 2, 3] 2,
          .write 4 [3] 1, .read 3 32768 2 [4, 5], .write 4 [4, 5] 1, .write 4 [5] (-1),
          .close 3 0, .close 4 0]) ∧
    (∃ result mid,
      CopyFile ⟨3, 4, [.data [1, 2, 3], .data [4, 5], .data []], [2, 1, 1, -1, 9], 0, 0⟩
        = some (result, [Call.open_ 3, Call.creat 4] ++ mid ++
          [Call.close 3 0, Call.close 4 0]) ∧
      (result = true ↔
        (∀ o ∈ [ReadOutcome.data [1, 2, 3], .data [4, 5]], 0 ≤ o.ret kBufferSize) ∧
        (∀ w ∈ [(2 : Int), 1, 1, -1], 0 ≤ w) ∧ (0 : Int) ≤ 0 ∧ (0 : Int) ≤ 0) ∧
      mid.filter Call.isRead
        = [ReadOutcome.data [1, 2, 3], .data [4, 5]].map (ReadOutcome.call 3) ∧
      (mid.filter Call.isWrite).map Call.ret = [2, 1, 1, -1] ∧
      ∀ c ∈ mid, c.isRead = true ∨ c.isWrite = true) ∧
    CopyFile ⟨3, 4, [.data [1], .error], [1], 0, 0⟩
      = some (false, [.open_ 3, .creat 4, .read 3 32768 1 [1], .write 4 [1] 1,
          .read 3 32768 (-1) [], .close 3 0, .close 4 0]) ∧
    ((false = true ↔ ∀ c ∈ [Call.open_ 3, .creat 4, .read 3 32768 1 [1], .write 4 [1] 1,
        .read 3 32768 (-1) [], .close 3 0, .close 4 0], 0 ≤ c.ret) ∧
      ((0 : Int) ≤ 3 → (0 : Int) ≤ 4 → ∃ usedR usedW,
        Course [.data [1], .error] [1] usedR usedW ∧
        (false = true ↔ (∀ o ∈ usedR, 0 ≤ o.ret kBufferSize) ∧ (∀ w ∈ usedW, 0 ≤ w) ∧
          (0 : Int) ≤ 0 ∧ (0 : Int) ≤ 0))) :=
  have hc : Course [.data [1, 2, 3], .data [4, 5], .data []] [2, 1, 1, -1, 9]
      [.data [1, 2, 3], .data [4, 5]] [2, 1, 1, -1] :=
    Course.chunk (.data [1, 2, 3]) [.data [4, 5], .data []] [2, 1] [1, -1, 9]
      [.data [4, 5]] [1, -1] (by decide) (by decide)
      (Course.write_fails (.data [4, 5]) [.data []] [1] (-1) [9]
        (by decide) (by decide) (by decide) (by decide))
  ⟨hc, by decide,
    (CopyFile_true_iff_calls_succeed
      ⟨3, 4, [.data [1, 2, 3], .data [4, 5], .data []], [2, 1, 1, -1, 9], 0, 0⟩).2.2.1
      (by decide) (by decide) _ _ hc,
    by decide,
    (CopyFile_true_iff_calls_succeed ⟨3, 4, [.data [1], .error], [1], 0, 0⟩).2.2.2
      false _ (by decide)⟩

/-- C9: when `CopyFile` returns `true` and no `write` accepted more bytes than it was
offered, the bytes written to the destination descriptor are the chunks delivered by
the successive `read` calls up to the first that returned `0`, concatenated in order:
nothing skipped, nothing duplicated, whatever the sizes of the partial writes. -/
theorem CopyFile_writes_what_it_reads (os : CopyFileOutcomes) (calls : List Call)
    (h : CopyFile os = some (true, calls)) (hw : WritesWithinOffer calls) :
    written_to os.creat calls = (chunks_until_eof os.reads).flatten := by
  unfold CopyFile at h
  simp only at h
  split at h
  · simp at h
  · split at h
    · simp at h
    · cases hr : read_loop os.open_ os.creat os.reads (fun _ => 0) os.writes with
      | none => simp [hr] at h
      | some r =>
        obtain ⟨rres, rcalls⟩ := r
        simp only [hr, Option.some.injEq, Prod.mk.injEq] at h
        obtain ⟨h1, h2⟩ := h
        subst h2
        have hrr : rres = true := by
          cases rres with
          | true => rfl
          | false => simp at h1
        subst hrr
        have hw1 : WritesWithinOffer rcalls := (WritesWithinOffer.left hw).right
        have e := read_loop_written _ _ _ _ _ _ hr hw1
        rw [written_to_append, written_to_append, e]
        simp [written_to, Call.accepted]

/-- Witness for C9: two chunks, the first written in three partial writes one of which
accepts nothing. -/
theorem CopyFile_writes_what_it_reads_witness :
    CopyFile ⟨3, 4, [.data [1, 2, 3], .data [4], .data []], [2, 0, 1, 1], 0, 0⟩ = some (true,
      [.open_ 3, .creat 4, .read 3 32768 3 [1, 2, 3], .write 4 [1, 2, 3] 2, .write 4 [3] 0,
        .write 4 [3] 1, .read 3 32768 1 [4], .write 4 [4] 1, .read 3 32768 0 [],
        .close 3 0, .close 4 0]) ∧
    written_to 4 [.open_ 3, .creat 4, .read 3 32768 3 [1, 2, 3], .write 4 [1, 2, 3] 2,
        .write 4 [3] 0, .write 4 [3] 1, .read 3 32768 1 [4], .write 4 [4] 1,
        .read 3 32768 0 [], .close 3 0, .close 4 0]
      = (chunks_until_eof [.data [1, 2, 3], .data [4], .data []]).flatten :=
  ⟨by decide,
    CopyFile_writes_what_it_reads
      ⟨3, 4, [.data [1, 2, 3], .data [4], .data []], [2, 0, 1, 1], 0, 0⟩ _
      (by decide) (by decide)⟩

/-- C10 fails on the code: `open` returns descriptor 3 and `fdatasync` fails; the
function returns `false` after the calls `open`, `fdatasync` only, and descriptor 3,
not open before the call, is open after it.  The same holds when `posix_fadvise`
fails. -/
theorem EvictFileFromSystemCache_leaks_descriptor :
    EvictFileFromSystemCache ⟨3, -1, 0, 0⟩
      = (false, [Call.open_ 3, Call.fdatasync 3 (-1)]) ∧
    fds_after [] (EvictFileFromSystemCache ⟨3, -1, 0, 0⟩).2 = [3] ∧
    EvictFileFromSystemCache ⟨3, 0, 22, 0⟩
      = (false, [Call.open_ 3, Call.fdatasync 3 0, Call.posix_fadvise 3 22]) ∧
    fds_after [] (EvictFileFromSystemCache ⟨3, 0, 22, 0⟩).2 = [3] ∧
    fds_after [] (EvictFileFromSystemCache ⟨3, 0, 0, 0⟩).2 = [] := by
  decide

end file_util
